import Mathlib

/-!
Shallow embedding of `src/ArimaaAnalyzer.Maui/Aiexecutables/mypy.py`.

The script starts an external engine process, spawns one background
drainer thread running `enqueue_output` (reads raw byte lines from the
pipe, decodes them as strict UTF-8, strips trailing newline characters,
puts the result on a thread-safe queue), writes a fixed board setup plus
a `go` command through `send` (which appends one newline, encodes to
UTF-8, writes once and flushes), then polls the queue in a loop until a
line starting with `bestmove` arrives, echoing every dequeued line, and
finally prints the result, sends `quit` and waits on the process.

Bytes are modelled as `Nat` (each in `0..255` for meaningful inputs),
byte strings as `List Nat`, Python `str` as Lean `String`.
-/

/-- One step of a strict UTF-8 decoder: decode the first scalar value of
the byte list, returning the character and the remaining bytes, or
`none` if the input does not start with a well-formed, shortest-form,
non-surrogate UTF-8 sequence.  This models the per-byte acceptance rules
of Python `bytes.decode("utf-8")` (strict errors). -/
def utf8Decode1 : List Nat → Option (Char × List Nat)
  | [] => none
  | b :: rest =>
    if b < 0x80 then some (Char.ofNat b, rest)
    else if b < 0xC2 then none
    else if b < 0xE0 then
      match rest with
      | c1 :: r =>
        if 0x80 ≤ c1 ∧ c1 < 0xC0 then
          some (Char.ofNat (0x40 * (b - 0xC0) + (c1 - 0x80)), r)
        else none
      | [] => none
    else if b < 0xF0 then
      match rest with
      | c1 :: c2 :: r =>
        if (0x80 ≤ c1 ∧ c1 < 0xC0) ∧ (0x80 ≤ c2 ∧ c2 < 0xC0) ∧
            (b = 0xE0 → 0xA0 ≤ c1) ∧ (b = 0xED → c1 < 0xA0) then
          some (Char.ofNat (0x1000 * (b - 0xE0) + 0x40 * (c1 - 0x80) + (c2 - 0x80)), r)
        else none
      | _ => none
    else if b < 0xF5 then
      match rest with
      | c1 :: c2 :: c3 :: r =>
        if (0x80 ≤ c1 ∧ c1 < 0xC0) ∧ (0x80 ≤ c2 ∧ c2 < 0xC0) ∧ (0x80 ≤ c3 ∧ c3 < 0xC0) ∧
            (b = 0xF0 → 0x90 ≤ c1) ∧ (b = 0xF4 → c1 < 0x90) then
          some (Char.ofNat (0x40000 * (b - 0xF0) + 0x1000 * (c1 - 0x80) +
            0x40 * (c2 - 0x80) + (c3 - 0x80)), r)
        else none
      | _ => none
    else none

/-- Fuel-indexed loop running `utf8Decode1` to completion.  Any fuel at
least the length of the byte list is enough, because each step consumes
at least one byte. -/
def decodeLoop : Nat → List Nat → Option (List Char)
  | _, [] => some []
  | 0, _ :: _ => none
  | fuel + 1, b :: rest =>
    match utf8Decode1 (b :: rest) with
    | some (c, r) => (decodeLoop fuel r).map (fun cs => c :: cs)
    | none => none

/-- Strict UTF-8 decoding of a byte string, as performed by
`line.decode("utf-8")` in the source: `none` models a raised
`UnicodeDecodeError`. -/
def decodeUtf8 (l : List Nat) : Option String :=
  (decodeLoop l.length l).map (fun cs => String.mk cs)

/-- UTF-8 encoding of one character (standard 1-4 byte serialisation). -/
def utf8EncodeChar (c : Char) : List Nat :=
  if c.toNat < 0x80 then [c.toNat]
  else if c.toNat < 0x800 then
    [0xC0 + c.toNat / 0x40, 0x80 + c.toNat % 0x40]
  else if c.toNat < 0x10000 then
    [0xE0 + c.toNat / 0x1000, 0x80 + (c.toNat / 0x40) % 0x40, 0x80 + c.toNat % 0x40]
  else
    [0xF0 + c.toNat / 0x40000, 0x80 + (c.toNat / 0x1000) % 0x40,
     0x80 + (c.toNat / 0x40) % 0x40, 0x80 + c.toNat % 0x40]

/-- UTF-8 encoding of a string, as performed by `s.encode("utf-8")`. -/
def encodeUtf8 (s : String) : List Nat :=
  (s.data.map utf8EncodeChar).flatten

/-- Python `s.rstrip("\n")`: remove every trailing newline character. -/
def pyRstripNl (s : String) : String :=
  String.mk ((s.data.reverse.dropWhile (fun c => c == '\n')).reverse)

/-- Comparison definition following the words of the specification:
the decoded text "with the trailing line terminator stripped", i.e. one
final newline removed when present. -/
def specStripTerminator (s : String) : String :=
  String.mk (if s.data.getLast? = some '\n' then s.data.dropLast else s.data)

/-- Python `line.startswith(prefixStr)`: character-prefix test. -/
def pyStartswith (line prefixStr : String) : Bool :=
  prefixStr.data.isPrefixOf line.data

/-- An event on the engine process's input pipe. -/
inductive PipeEv where
  | write (bytes : List Nat)
  | flush
deriving DecidableEq

/-- The `send` function of the script: append one newline to the
command, encode to UTF-8, write the bytes in a single write to the
process's stdin, then flush. -/
def send (cmd : String) : List PipeEv :=
  [PipeEv.write (encodeUtf8 (cmd ++ "\n")), PipeEv.flush]

/-- The pipe-event stream produced by sending a list of commands in
order through `send`; the bytes written are a function of the command
strings alone. -/
def commandStream (cmds : List String) : List PipeEv :=
  (cmds.map send).flatten

/-- The byte payloads of the write events, in order. -/
def writesOf (evs : List PipeEv) : List (List Nat) :=
  evs.filterMap fun e =>
    match e with
    | PipeEv.write b => some b
    | PipeEv.flush => none

/-- Outcome of the drainer thread: the lines it put on the queue, and
whether `stream.close()` was reached. -/
structure DrainResult where
  enqueued : List String
  closed : Bool
deriving DecidableEq

/-- The `enqueue_output` function of the script, applied to the raw byte
lines that `stream.readline` yields before end-of-stream.  Each line is
decoded as strict UTF-8 and newline-stripped before being put on the
queue; a decode failure raises out of the loop, so nothing further is
enqueued and `stream.close()` is never reached. -/
def enqueue_output : List (List Nat) → DrainResult
  | [] => { enqueued := [], closed := true }
  | raw :: rest =>
    match decodeUtf8 raw with
    | some s =>
      { enqueued := pyRstripNl s :: (enqueue_output rest).enqueued
        closed := (enqueue_output rest).closed }
    | none => { enqueued := [], closed := false }

/-- An observable event of the main sequence of the script. -/
inductive Ev where
  | send (cmd : String)
  | echo (line : String)
  | printFinal (m : String)
  | waitProc
deriving DecidableEq

/-- The response-waiter loop (`while True: ... q.get(timeout=0.1) ...`).
`q` lists the lines that will ever arrive on the queue, in order; each
unit of fuel is one iteration (a poll that either times out on the empty
queue or dequeues the next line).  The result is the trace of echoed
lines and `some bestmove` if the loop exited within the given fuel,
`none` if it is still polling. -/
def waitLoop : Nat → List String → List Ev × Option String
  | 0, _ => ([], none)
  | fuel + 1, [] => waitLoop fuel []
  | fuel + 1, line :: rest =>
    if pyStartswith line "bestmove" then ([Ev.echo line], some line)
    else (Ev.echo line :: (waitLoop fuel rest).1, (waitLoop fuel rest).2)

/-- The straight-line prelude of the script: the eleven board-setup
commands followed by the compute request `go`, exactly as written in the
source. -/
def preludeEvs : List Ev :=
  [Ev.send "position 1w", Ev.send "setup",
   Ev.send "  r r r r r r r r", Ev.send "  h c d m e d c h",
   Ev.send "  . . . . . . . .", Ev.send "  . . . . . . . .",
   Ev.send "  . . . . . . . .", Ev.send "  . . . . . . . .",
   Ev.send "  H C D M E D C H", Ev.send "  R R R R R R R R",
   Ev.send "end", Ev.send "go"]

/-- The whole main sequence of the script as an event trace: the setup
and `go` sends, then the waiter loop; when the loop has exited the
script prints the final move, sends `quit` and blocks in
`engine.wait()`, and nothing happens afterwards (in particular no exit
code is inspected).  When the loop is still polling, no shutdown event
has occurred. -/
def script (fuel : Nat) (q : List String) : List Ev :=
  preludeEvs ++
    (match waitLoop fuel q with
     | (evs, some m) => evs ++ [Ev.printFinal m, Ev.send "quit", Ev.waitProc]
     | (evs, none) => evs)

/-- The commands sent over the input pipe, extracted from a trace. -/
def sentCommands (t : List Ev) : List String :=
  t.filterMap fun e =>
    match e with
    | Ev.send c => some c
    | _ => none

/-- The commands sent strictly before the `go` command. -/
def commandsBeforeGo (t : List Ev) : List String :=
  (sentCommands t).takeWhile (fun c => !(c == "go"))

/-- The eight literal board-row command strings of the source. -/
def boardRows : List String :=
  ["  r r r r r r r r", "  h c d m e d c h",
   "  . . . . . . . .", "  . . . . . . . .",
   "  . . . . . . . .", "  . . . . . . . .",
   "  H C D M E D C H", "  R R R R R R R R"]

/-- Shared state of the producer/consumer pair: the raw lines the
process has not yet delivered, the queue contents, and the lines already
observed (dequeued) by the waiter. -/
structure SysState where
  pending : List (List Nat)
  queue : List String
  observed : List String

/-- One step of the drainer thread: read the next raw line, decode and
strip it, and put it at the back of the queue.  A decode failure kills
the thread, so the state no longer changes; at end-of-stream there is
nothing to do.  The drainer is the only transition that grows the
queue. -/
def drainStep (st : SysState) : SysState :=
  match st.pending with
  | [] => st
  | raw :: rest =>
    match decodeUtf8 raw with
    | some s =>
      { pending := rest, queue := st.queue ++ [pyRstripNl s], observed := st.observed }
    | none => st

/-- One step of the response waiter: unless it has already observed a
`bestmove` line (and broken out of its loop), dequeue the front line if
any; an empty queue is a timeout and changes nothing.  The waiter is the
only transition that shrinks the queue. -/
def waitStep (st : SysState) : SysState :=
  if st.observed.any (fun l => pyStartswith l "bestmove") then st
  else
    match st.queue with
    | [] => st
    | line :: rest => { st with queue := rest, observed := st.observed ++ [line] }

/-- Initial state: the process will deliver `raw`, queue empty, nothing
observed. -/
def initState (raw : List (List Nat)) : SysState :=
  { pending := raw, queue := [], observed := [] }

/-- Run an arbitrary interleaving of drainer steps (`true`) and waiter
steps (`false`). -/
def runSys (sched : List Bool) (st : SysState) : SysState :=
  match sched with
  | [] => st
  | b :: bs => runSys bs (if b then drainStep st else waitStep st)

/-! ### Helper lemmas about the UTF-8 codec -/

theorem charOfNat_toNat_of_valid {n : Nat} (h : Nat.isValidChar n) :
    (Char.ofNat n).toNat = n := by
  rw [Char.ofNat, dif_pos h]
  rfl

theorem charOfNat_eq_nl_iff {n : Nat} (h : n < 0x80) :
    Char.ofNat n = '\n' ↔ n = 10 := by
  constructor
  · intro he
    have h2 : (Char.ofNat n).toNat = 10 := by rw [he]; rfl
    rw [charOfNat_toNat_of_valid (Or.inl (by omega))] at h2
    exact h2
  · intro he
    subst he
    rfl

theorem charOfNat_ne_nl {n : Nat} (h : 0x80 ≤ n) :
    Char.ofNat n ≠ '\n' := by
  intro he
  have h2 : (Char.ofNat n).toNat = 10 := by rw [he]; rfl
  rw [Char.ofNat] at h2
  split at h2
  · have h3 : (Char.ofNatAux n ‹_›).toNat = n := rfl
    rw [h3] at h2
    omega
  · have h3 : (10 : Nat) = 0 := h2.symm
    omega

theorem utf8Decode1_spec {l : List Nat} {c : Char} {r : List Nat}
    (h : utf8Decode1 l = some (c, r)) :
    ∃ u, l = u ++ r ∧ u ≠ [] ∧ (c = '\n' → u = [10]) ∧ r.length < l.length := by
  match l with
  | [] => simp [utf8Decode1] at h
  | [b] =>
    simp only [utf8Decode1] at h
    split_ifs at h with h1
    simp only [Option.some.injEq, Prod.mk.injEq] at h
    obtain ⟨hc, hr⟩ := h
    subst hc; subst hr
    refine ⟨[b], by simp, by simp, ?_, by simp⟩
    intro hcn
    simp [(charOfNat_eq_nl_iff h1).mp hcn]
  | [b, c1] =>
    simp only [utf8Decode1] at h
    split_ifs at h with h1 h2 h3 hg
    · simp only [Option.some.injEq, Prod.mk.injEq] at h
      obtain ⟨hc, hr⟩ := h
      subst hc; subst hr
      refine ⟨[b], by simp, by simp, ?_, by simp⟩
      intro hcn
      simp [(charOfNat_eq_nl_iff h1).mp hcn]
    · simp only [Option.some.injEq, Prod.mk.injEq] at h
      obtain ⟨hc, hr⟩ := h
      subst hc; subst hr
      refine ⟨[b, c1], by simp, by simp, ?_, by simp⟩
      intro hcn
      exact absurd hcn (charOfNat_ne_nl (by omega))
  | [b, c1, c2] =>
    simp only [utf8Decode1] at h
    split_ifs at h with h1 h2 h3 hg h4 hg
    · simp only [Option.some.injEq, Prod.mk.injEq] at h
      obtain ⟨hc, hr⟩ := h
      subst hc; subst hr
      refine ⟨[b], by simp, by simp, ?_, by simp⟩
      intro hcn
      simp [(charOfNat_eq_nl_iff h1).mp hcn]
    · simp only [Option.some.injEq, Prod.mk.injEq] at h
      obtain ⟨hc, hr⟩ := h
      subst hc; subst hr
      refine ⟨[b, c1], by simp, by simp, ?_, by simp⟩
      intro hcn
      exact absurd hcn (charOfNat_ne_nl (by omega))
    · simp only [Option.some.injEq, Prod.mk.injEq] at h
      obtain ⟨hc, hr⟩ := h
      subst hc; subst hr
      obtain ⟨hg1, hg2, hg3, hg4⟩ := hg
      refine ⟨[b, c1, c2], by simp, by simp, ?_, by simp⟩
      intro hcn
      refine absurd hcn (charOfNat_ne_nl ?_)
      rcases eq_or_ne b 0xE0 with rfl | hbne
      · have := hg3 rfl
        omega
      · omega
  | b :: c1 :: c2 :: c3 :: rr =>
    simp only [utf8Decode1] at h
    split_ifs at h with h1 h2 h3 hg h4 hg h5 hg
    · simp only [Option.some.injEq, Prod.mk.injEq] at h
      obtain ⟨hc, hr⟩ := h
      subst hc; subst hr
      refine ⟨[b], by simp, by simp, ?_, by simp⟩
      intro hcn
      simp [(charOfNat_eq_nl_iff h1).mp hcn]
    · simp only [Option.some.injEq, Prod.mk.injEq] at h
      obtain ⟨hc, hr⟩ := h
      subst hc; subst hr
      refine ⟨[b, c1], by simp, by simp, ?_, by simp⟩
      intro hcn
      exact absurd hcn (charOfNat_ne_nl (by omega))
    · simp only [Option.some.injEq, Prod.mk.injEq] at h
      obtain ⟨hc, hr⟩ := h
      subst hc; subst hr
      obtain ⟨hg1, hg2, hg3, hg4⟩ := hg
      refine ⟨[b, c1, c2], by simp, by simp, ?_, by simp⟩
      intro hcn
      refine absurd hcn (charOfNat_ne_nl ?_)
      rcases eq_or_ne b 0xE0 with rfl | hbne
      · have := hg3 rfl
        omega
      · omega
    · simp only [Option.some.injEq, Prod.mk.injEq] at h
      obtain ⟨hc, hr⟩ := h
      subst hc; subst hr
      obtain ⟨hg1, hg2, hg3, hg4, hg5⟩ := hg
      refine ⟨[b, c1, c2, c3], by simp, by simp, ?_, by simp only [List.length_cons]; omega⟩
      intro hcn
      refine absurd hcn (charOfNat_ne_nl ?_)
      rcases eq_or_ne b 0xF0 with rfl | hbne
      · have := hg4 rfl
        omega
      · omega

theorem decodeLoop_nil (fuel : Nat) : decodeLoop fuel [] = some [] := by
  cases fuel <;> rfl

theorem decodeLoop_ne_nil {fuel : Nat} {l : List Nat} {cs : List Char}
    (hl : l ≠ []) (h : decodeLoop fuel l = some cs) : cs ≠ [] := by
  match fuel, l with
  | 0, b :: rest => simp [decodeLoop] at h
  | fuel + 1, b :: rest =>
    rw [decodeLoop] at h
    cases h1 : utf8Decode1 (b :: rest) with
    | none => rw [h1] at h; simp at h
    | some cr =>
      rw [h1] at h
      obtain ⟨c, r⟩ := cr
      simp only [Option.map_eq_some'] at h
      obtain ⟨cs0, hcs0, hcs⟩ := h
      subst hcs
      simp

theorem decodeLoop_nl_dropLast :
    ∀ (fuel : Nat) (l : List Nat) (cs : List Char), l.length ≤ fuel →
      decodeLoop fuel l = some cs → 10 ∉ l.dropLast → '\n' ∉ cs.dropLast := by
  intro fuel
  induction fuel with
  | zero =>
    intro l cs hlen hdec h10
    have hl : l = [] := List.eq_nil_of_length_eq_zero (Nat.le_zero.mp hlen)
    subst hl
    rw [decodeLoop_nil] at hdec
    simp only [Option.some.injEq] at hdec
    subst hdec
    simp
  | succ fuel ih =>
    intro l cs hlen hdec h10
    match l with
    | [] =>
      rw [decodeLoop_nil] at hdec
      simp only [Option.some.injEq] at hdec
      subst hdec
      simp
    | b :: rest =>
      rw [decodeLoop] at hdec
      cases h1 : utf8Decode1 (b :: rest) with
      | none => rw [h1] at hdec; simp at hdec
      | some cr =>
        obtain ⟨c, r⟩ := cr
        rw [h1] at hdec
        simp only [Option.map_eq_some'] at hdec
        obtain ⟨cs0, hcs0, hcs⟩ := hdec
        subst hcs
        obtain ⟨u, hu, hune, hcnl, hlt⟩ := utf8Decode1_spec h1
        rcases eq_or_ne r [] with rfl | hrne
        · have hcs0nil : cs0 = [] := by
            rw [decodeLoop_nil] at hcs0
            simpa using hcs0.symm
          subst hcs0nil
          simp
        · have hcs0ne : cs0 ≠ [] := decodeLoop_ne_nil hrne hcs0
          have hdl : (b :: rest).dropLast = u ++ r.dropLast := by
            rw [hu, List.dropLast_append_of_ne_nil _ hrne]
          have h10u : 10 ∉ u := by
            intro hm
            exact h10 (by rw [hdl]; exact List.mem_append_left _ hm)
          have h10r : 10 ∉ r.dropLast := by
            intro hm
            exact h10 (by rw [hdl]; exact List.mem_append_right _ hm)
          have ihr : '\n' ∉ cs0.dropLast := by
            refine ih r cs0 ?_ hcs0 h10r
            have : (b :: rest).length ≤ fuel + 1 := hlen
            simp only [List.length_cons] at this
            omega
          rw [List.dropLast_cons_of_ne_nil hcs0ne]
          simp only [List.mem_cons, not_or]
          constructor
          · intro hceq
            have hu10 : u = [10] := hcnl hceq.symm
            exact h10u (by simp [hu10])
          · exact ihr

theorem dropWhile_nomatch {α : Type} {p : α → Bool} {l : List α}
    (h : ∀ x ∈ l, p x = false) : l.dropWhile p = l := by
  cases l with
  | nil => rfl
  | cons a t => simp [List.dropWhile_cons, h a (by simp)]

theorem rstrip_eq_stripOne {cs : List Char} (h : '\n' ∉ cs.dropLast) :
    (cs.reverse.dropWhile (fun c => c == '\n')).reverse =
      (if cs.getLast? = some '\n' then cs.dropLast else cs) := by
  induction cs using List.reverseRecOn with
  | nil => simp
  | append_singleton ds c _ih =>
    rw [List.dropLast_concat] at h
    rw [List.reverse_concat, List.getLast?_concat, List.dropLast_concat]
    have hds : ∀ x ∈ ds.reverse, (x == '\n') = false := by
      intro x hx
      have : x ∈ ds := by simpa using hx
      have hxne : x ≠ '\n' := fun he => h (he ▸ this)
      simpa using hxne
    by_cases hc : c = '\n'
    · subst hc
      rw [if_pos rfl]
      rw [List.dropWhile_cons, if_pos (by simp), dropWhile_nomatch hds]
      simp
    · rw [if_neg (by simpa using hc)]
      rw [List.dropWhile_cons, if_neg (by simpa using hc)]
      simp

/-! ### Helper lemmas about the response waiter -/

theorem waitLoop_empty (fuel : Nat) : waitLoop fuel [] = ([], none) := by
  induction fuel with
  | zero => rfl
  | succ fuel ih => rw [waitLoop, ih]

theorem waitLoop_none_result :
    ∀ (fuel : Nat) (q : List String),
      (∀ l ∈ q, pyStartswith l "bestmove" = false) → (waitLoop fuel q).2 = none := by
  intro fuel
  induction fuel with
  | zero => intro q _; rfl
  | succ fuel ih =>
    intro q hq
    match q with
    | [] => rw [waitLoop_empty]
    | line :: rest =>
      rw [waitLoop]
      rw [if_neg (by simp [hq line (by simp)])]
      exact ih rest (fun l hl => hq l (by simp [hl]))

theorem waitLoop_some_spec :
    ∀ (fuel : Nat) (q : List String) (m : String), (waitLoop fuel q).2 = some m →
      pyStartswith m "bestmove" = true ∧
      List.find? (fun l => pyStartswith l "bestmove") q = some m ∧
      (∃ rest, q = q.takeWhile (fun l => !(pyStartswith l "bestmove")) ++ m :: rest) ∧
      (waitLoop fuel q).1 =
        List.map Ev.echo (q.takeWhile (fun l => !(pyStartswith l "bestmove")) ++ [m]) := by
  intro fuel
  induction fuel with
  | zero => intro q m h; simp [waitLoop] at h
  | succ fuel ih =>
    intro q m h
    match q with
    | [] =>
      rw [waitLoop_empty] at h
      simp at h
    | line :: rest =>
      rw [waitLoop] at h
      by_cases hp : pyStartswith line "bestmove"
      · rw [if_pos hp] at h
        simp only [Option.some.injEq] at h
        subst h
        refine ⟨hp, by exact List.find?_cons_of_pos _ hp, ⟨rest, ?_⟩, ?_⟩
        · simp [List.takeWhile_cons, hp]
        · rw [waitLoop, if_pos hp]
          simp [List.takeWhile_cons, hp]
      · rw [if_neg hp] at h
        simp only at h
        obtain ⟨hm, hfind, ⟨rest', hq'⟩, htrace⟩ := ih rest m h
        have hpb : pyStartswith line "bestmove" = false := by simpa using hp
        refine ⟨hm, ?_, ⟨rest', ?_⟩, ?_⟩
        · rw [List.find?_cons_of_neg _ (by simp [hpb]), hfind]
        · simp only [List.takeWhile_cons, hpb]
          simpa using hq'
        · rw [waitLoop, if_neg hp]
          simp only [List.takeWhile_cons, hpb]
          simpa using htrace

theorem waitLoop_trace_echo :
    ∀ (fuel : Nat) (q : List String) (e : Ev), e ∈ (waitLoop fuel q).1 →
      ∃ l, e = Ev.echo l := by
  intro fuel
  induction fuel with
  | zero => intro q e h; simp [waitLoop] at h
  | succ fuel ih =>
    intro q e h
    match q with
    | [] =>
      rw [waitLoop_empty] at h
      simp at h
    | line :: rest =>
      rw [waitLoop] at h
      by_cases hp : pyStartswith line "bestmove"
      · rw [if_pos hp] at h
        simp only [List.mem_singleton] at h
        exact ⟨line, h⟩
      · rw [if_neg hp] at h
        simp only [List.mem_cons] at h
        rcases h with rfl | h
        · exact ⟨line, rfl⟩
        · exact ih rest e h

/-! ### Helper lemmas about sending -/

theorem encodeUtf8_append_nl (cmd : String) :
    encodeUtf8 (cmd ++ "\n") = encodeUtf8 cmd ++ [10] := by
  have hdata : (cmd ++ "\n").data = cmd.data ++ ['\n'] := by
    rw [String.data_append]
  rw [encodeUtf8, hdata, List.map_append, List.flatten_append]
  rfl

theorem takeWhile_append_stop {α : Type} (p : α → Bool) (xs : List α) (y : α)
    (ys : List α) (h1 : ∀ x ∈ xs, p x = true) (h2 : p y = false) :
    List.takeWhile p (xs ++ y :: ys) = xs := by
  induction xs with
  | nil => simp [List.takeWhile_cons, h2]
  | cons a t ih =>
    rw [List.cons_append, List.takeWhile_cons, if_pos (h1 a (by simp))]
    rw [ih (fun x hx => h1 x (by simp [hx]))]

/-! ### Helper lemmas about the producer/consumer invariant -/

/-- The queue-refinement invariant: some prefix `taken` of the raw
stream has been read; each of its lines decoded successfully; and the
lines already observed by the waiter followed by the lines still queued
are exactly the processed images of `taken`, in order. -/
def SysInv (raw : List (List Nat)) (st : SysState) : Prop :=
  ∃ taken, taken ++ st.pending = raw ∧
    (∀ r ∈ taken, (decodeUtf8 r).isSome = true) ∧
    st.observed ++ st.queue = taken.filterMap (fun r => (decodeUtf8 r).map pyRstripNl)

theorem sysInv_init (raw : List (List Nat)) : SysInv raw (initState raw) :=
  ⟨[], rfl, by simp, rfl⟩

theorem sysInv_drain {raw : List (List Nat)} {st : SysState}
    (h : SysInv raw st) : SysInv raw (drainStep st) := by
  obtain ⟨taken, htaken, hdec, hqueue⟩ := h
  obtain ⟨pending, queue, observed⟩ := st
  match pending with
  | [] => exact ⟨taken, htaken, hdec, hqueue⟩
  | raw0 :: rest =>
    cases hd : decodeUtf8 raw0 with
    | none =>
      simp only [drainStep, hd]
      exact ⟨taken, htaken, hdec, hqueue⟩
    | some s =>
      simp only [drainStep, hd]
      refine ⟨taken ++ [raw0], ?_, ?_, ?_⟩
      · simpa [List.append_assoc] using htaken
      · intro r hr
        rcases List.mem_append.mp hr with hr | hr
        · exact hdec r hr
        · rw [List.mem_singleton.mp hr, hd]; rfl
      · simp only [List.filterMap_append, ← List.append_assoc]
        simp only at hqueue
        rw [hqueue]
        simp [hd]

theorem sysInv_wait {raw : List (List Nat)} {st : SysState}
    (h : SysInv raw st) : SysInv raw (waitStep st) := by
  obtain ⟨taken, htaken, hdec, hqueue⟩ := h
  obtain ⟨pending, queue, observed⟩ := st
  by_cases hb : (observed.any fun l => pyStartswith l "bestmove") = true
  · simp only [waitStep, hb, if_true]
    exact ⟨taken, htaken, hdec, hqueue⟩
  · match queue with
    | [] =>
      simp only [waitStep, hb, if_false]
      exact ⟨taken, htaken, hdec, hqueue⟩
    | line :: rest =>
      simp only [waitStep, hb, if_false]
      refine ⟨taken, htaken, hdec, ?_⟩
      simp only at hqueue
      simpa [List.append_assoc] using hqueue

theorem sysInv_run (sched : List Bool) {raw : List (List Nat)} {st : SysState}
    (h : SysInv raw st) : SysInv raw (runSys sched st) := by
  induction sched generalizing st with
  | nil => exact h
  | cons b bs ih =>
    rw [runSys]
    cases b
    · exact ih (sysInv_wait h)
    · exact ih (sysInv_drain h)

theorem isPrefixOf_eq_true_iff {l1 l2 : List Char} :
    l1.isPrefixOf l2 = true ↔ l1 <+: l2 := by
  induction l1 generalizing l2 with
  | nil => simp [List.isPrefixOf]
  | cons a t ih =>
    cases l2 with
    | nil => simp [List.isPrefixOf]
    | cons b t2 => simp [List.isPrefixOf, List.cons_prefix_cons, ih]

/-! ### The claims -/

/-- Claim C1: in every interleaving of drainer and waiter steps, the
lines read so far from the output stream (`taken`, a prefix of the raw
stream) are enqueued exactly once and in order: the observed lines
followed by the still-queued lines are exactly the processed images of
`taken`, and what the waiter has observed is a prefix of the enqueued
sequence, so every line is enqueued before it is observed.  Sole
producer/consumer is structural in the model: `drainStep` is the only
transition appending to the queue and `waitStep` the only one removing
from it. -/
theorem c1_queue_invariant (sched : List Bool) (raw : List (List Nat)) :
    ∃ taken, taken ++ (runSys sched (initState raw)).pending = raw ∧
      (∀ r ∈ taken, (decodeUtf8 r).isSome = true) ∧
      (runSys sched (initState raw)).observed ++ (runSys sched (initState raw)).queue
        = taken.filterMap (fun r => (decodeUtf8 r).map pyRstripNl) ∧
      (runSys sched (initState raw)).observed
        <+: taken.filterMap (fun r => (decodeUtf8 r).map pyRstripNl) := by
  obtain ⟨taken, h1, h2, h3⟩ := sysInv_run sched (sysInv_init raw)
  exact ⟨taken, h1, h2, h3, ⟨_, h3⟩⟩

/-- Claim C2: if no queued line starts with `bestmove`, the waiter loop
never exits, whatever the iteration bound; on an empty queue it is still
polling (with an empty trace) after any number of retries; and the loop
exits only upon observing a `bestmove`-prefixed line. -/
theorem c2_no_bestmove_no_exit (fuel : Nat) (q : List String) :
    ((∀ l ∈ q, pyStartswith l "bestmove" = false) → (waitLoop fuel q).2 = none) ∧
    waitLoop fuel [] = ([], none) ∧
    (∀ m, (waitLoop fuel q).2 = some m → pyStartswith m "bestmove" = true) := by
  exact ⟨fun h => waitLoop_none_result fuel q h, waitLoop_empty fuel,
    fun m hm => (waitLoop_some_spec fuel q m hm).1⟩

theorem c2_witness :
    (waitLoop 7 ["info depth 3"]).2 = none ∧
    pyStartswith "bestmove x" "bestmove" = true :=
  ⟨(c2_no_bestmove_no_exit 7 ["info depth 3"]).1 (by decide),
   (c2_no_bestmove_no_exit 3 ["bestmove x"]).2.2 "bestmove x" (by decide)⟩

/-- Claim C3: the waiter's match on a dequeued line succeeds exactly
when `bestmove` is a character prefix of the line; a line containing
`bestmove` only as an internal substring does not match; and when the
loop exits with result `m`, `m` is the first queued line satisfying the
prefix test. -/
theorem c3_prefix_match :
    (∀ line : String, pyStartswith line "bestmove" = true ↔ "bestmove".data <+: line.data) ∧
    (∀ line : String, "bestmove".data <:+: line.data → ¬ "bestmove".data <+: line.data →
      pyStartswith line "bestmove" = false) ∧
    (∀ (fuel : Nat) (q : List String) (m : String), (waitLoop fuel q).2 = some m →
      List.find? (fun l => pyStartswith l "bestmove") q = some m) := by
  refine ⟨fun line => isPrefixOf_eq_true_iff, ?_, fun fuel q m hm => (waitLoop_some_spec fuel q m hm).2.1⟩
  intro line _hin hnp
  by_cases h : pyStartswith line "bestmove" = true
  · exact absurd (isPrefixOf_eq_true_iff.mp h) hnp
  · simpa using h

theorem c3_witness :
    pyStartswith "try bestmove a1" "bestmove" = false ∧
    List.find? (fun l => pyStartswith l "bestmove") ["log", "bestmove a"] = some "bestmove a" :=
  ⟨c3_prefix_match.2.1 "try bestmove a1" ⟨"try ".data, " a1".data, by decide⟩ (by decide),
   c3_prefix_match.2.2 3 ["log", "bestmove a"] "bestmove a" (by decide)⟩

theorem commandsBeforeGo_prelude (tail : List Ev) :
    commandsBeforeGo (preludeEvs ++ tail) =
      ["position 1w", "setup", "  r r r r r r r r", "  h c d m e d c h",
       "  . . . . . . . .", "  . . . . . . . .", "  . . . . . . . .", "  . . . . . . . .",
       "  H C D M E D C H", "  R R R R R R R R", "end"] := by
  rw [commandsBeforeGo]
  have hsent : sentCommands (preludeEvs ++ tail) =
      ["position 1w", "setup", "  r r r r r r r r", "  h c d m e d c h",
       "  . . . . . . . .", "  . . . . . . . .", "  . . . . . . . .", "  . . . . . . . .",
       "  H C D M E D C H", "  R R R R R R R R", "end"] ++ "go" :: sentCommands tail := rfl
  rw [hsent]
  exact takeWhile_append_stop _ _ _ _ (by decide) (by decide)

/-- Claim C4: the commands sent before `go` are exactly the eleven
literal board-setup commands, in order: `position 1w`, `setup`, the
eight literal row strings (whose characters are piece letters, dots for
empty squares and separating spaces), then `end` — and no others. -/
theorem c4_setup_commands (fuel : Nat) (q : List String) :
    commandsBeforeGo (script fuel q) = "position 1w" :: "setup" :: (boardRows ++ ["end"]) ∧
    ("position 1w" :: "setup" :: (boardRows ++ ["end"])).length = 11 ∧
    boardRows.length = 8 ∧
    (∀ r ∈ boardRows, ∀ ch ∈ r.data, ch = '.' ∨ ch = ' ' ∨ ch.isAlpha = true) := by
  refine ⟨?_, by decide, by decide, by decide⟩
  rw [script]
  exact (commandsBeforeGo_prelude _).trans (by decide)

/-- Claim C5: `send cmd` produces exactly one write event carrying the
UTF-8 encoding of `cmd` with a single newline byte appended, followed by
one flush, and nothing else. -/
theorem c5_send_bytes (cmd : String) :
    send cmd = [PipeEv.write (encodeUtf8 cmd ++ [10]), PipeEv.flush] ∧
    writesOf (send cmd) = [encodeUtf8 cmd ++ [10]] := by
  constructor
  · rw [send, encodeUtf8_append_nl]
  · rw [send, encodeUtf8_append_nl]
    rfl

/-- Claim C6: for a raw byte line as delivered by `readline` (a line
terminator byte can occur only in last position) that decodes to `s`,
the line the drainer enqueues is exactly `s` with the trailing line
terminator stripped. -/
theorem c6_enqueued_line (raw : List Nat) (rest : List (List Nat)) (s : String)
    (h10 : 10 ∉ raw.dropLast) (hdec : decodeUtf8 raw = some s) :
    (enqueue_output (raw :: rest)).enqueued =
      specStripTerminator s :: (enqueue_output rest).enqueued := by
  have hstrip : pyRstripNl s = specStripTerminator s := by
    rw [decodeUtf8] at hdec
    simp only [Option.map_eq_some'] at hdec
    obtain ⟨cs, hcs, hs⟩ := hdec
    subst hs
    have hnl : '\n' ∉ cs.dropLast :=
      decodeLoop_nl_dropLast raw.length raw cs (Nat.le_refl _) hcs h10
    exact congrArg String.mk (rstrip_eq_stripOne hnl)
  simp only [enqueue_output, hdec, hstrip]

theorem c6_witness :
    10 ∉ ([104, 105, 10] : List Nat).dropLast ∧
    decodeUtf8 [104, 105, 10] = some (String.mk ['h', 'i', '\n']) ∧
    (enqueue_output [[104, 105, 10]]).enqueued =
      specStripTerminator (String.mk ['h', 'i', '\n']) :: (enqueue_output []).enqueued :=
  ⟨by decide, by decide,
   c6_enqueued_line [104, 105, 10] [] (String.mk ['h', 'i', '\n']) (by decide) (by decide)⟩

/-- Claim C7: the `quit` command and the blocking process wait happen
only after a `bestmove`-prefixed line has been observed — while the loop
is still polling, neither occurs in the trace — and when they do occur
they are the final two events, so nothing (in particular no exit-code
inspection) follows the wait. -/
theorem c7_shutdown_after_bestmove (fuel : Nat) (q : List String) :
    ((waitLoop fuel q).2 = none →
      Ev.send "quit" ∉ script fuel q ∧ Ev.waitProc ∉ script fuel q) ∧
    (∀ m, (waitLoop fuel q).2 = some m →
      ∃ evs, script fuel q = evs ++ [Ev.send "quit", Ev.waitProc] ∧
        Ev.send "quit" ∉ evs ∧ Ev.waitProc ∉ evs ∧
        Ev.echo m ∈ evs ∧ pyStartswith m "bestmove" = true) := by
  have hech : ∀ e ∈ (waitLoop fuel q).1, ∃ l, e = Ev.echo l :=
    fun e he => waitLoop_trace_echo fuel q e he
  constructor
  · intro hnone
    cases hw : waitLoop fuel q with
    | mk evs r =>
      rw [hw] at hnone hech
      simp only at hnone hech
      subst hnone
      constructor
      · rw [script, hw]
        simp only [List.mem_append, not_or]
        refine ⟨by decide, ?_⟩
        intro hmem
        obtain ⟨l, hl⟩ := hech _ hmem
        simp at hl
      · rw [script, hw]
        simp only [List.mem_append, not_or]
        refine ⟨by decide, ?_⟩
        intro hmem
        obtain ⟨l, hl⟩ := hech _ hmem
        simp at hl
  · intro m hm
    obtain ⟨hmb, _hfind, hsplit, htrace⟩ := waitLoop_some_spec fuel q m hm
    cases hw : waitLoop fuel q with
    | mk evs r =>
      rw [hw] at hm htrace hech
      simp only at hm htrace hech
      subst hm
      refine ⟨preludeEvs ++ evs ++ [Ev.printFinal m], ?_, ?_, ?_, ?_, hmb⟩
      · rw [script, hw]
        simp [List.append_assoc]
      · simp only [List.mem_append, not_or]
        refine ⟨⟨by decide, ?_⟩, by simp⟩
        intro hmem
        obtain ⟨l, hl⟩ := hech _ hmem
        simp at hl
      · simp only [List.mem_append, not_or]
        refine ⟨⟨by decide, ?_⟩, by simp⟩
        intro hmem
        obtain ⟨l, hl⟩ := hech _ hmem
        simp at hl
      · have hmem : Ev.echo m ∈ evs := by
          rw [htrace]
          exact List.mem_map_of_mem _ (List.mem_append_right _ (by simp))
        exact List.mem_append_left _ (List.mem_append_right _ hmem)

theorem c7_witness :
    (waitLoop 2 ["bestmove h"]).2 = some "bestmove h" ∧
    ∃ evs, script 2 ["bestmove h"] = evs ++ [Ev.send "quit", Ev.waitProc] ∧
      Ev.send "quit" ∉ evs ∧ Ev.waitProc ∉ evs ∧
      Ev.echo "bestmove h" ∈ evs ∧ pyStartswith "bestmove h" "bestmove" = true :=
  ⟨by decide, (c7_shutdown_after_bestmove 2 ["bestmove h"]).2 "bestmove h" (by decide)⟩

theorem writesOf_commandStream (cmds : List String) :
    writesOf (commandStream cmds) = cmds.map (fun c => encodeUtf8 c ++ [10]) := by
  induction cmds with
  | nil => rfl
  | cons c t ih =>
    simp only [commandStream, List.map_cons, List.flatten_cons, writesOf,
      List.filterMap_append]
    have h1 : (send c).filterMap (fun e =>
        match e with
        | PipeEv.write b => some b
        | PipeEv.flush => none) = [encodeUtf8 c ++ [10]] := by
      rw [send, encodeUtf8_append_nl]
      rfl
    rw [h1]
    simp only [List.singleton_append, List.cons.injEq, true_and]
    simpa [commandStream, writesOf] using ih

/-- Claim C8: the bytes written to a session's input pipe are a function
of the command strings alone, so two independent sessions given the same
Board Setup sequence produce byte-identical command streams; the stream
is explicitly the per-command UTF-8 encodings, each with its newline
byte. -/
theorem c8_deterministic_stream (cmds1 cmds2 : List String) (h : cmds1 = cmds2) :
    commandStream cmds1 = commandStream cmds2 ∧
    writesOf (commandStream cmds1) = cmds1.map (fun c => encodeUtf8 c ++ [10]) := by
  subst h
  exact ⟨rfl, writesOf_commandStream cmds1⟩

theorem c8_witness :
    commandStream ("position 1w" :: "setup" :: (boardRows ++ ["end"])) =
      commandStream ("position 1w" :: "setup" :: (boardRows ++ ["end"])) ∧
    writesOf (commandStream ("position 1w" :: "setup" :: (boardRows ++ ["end"]))) =
      ("position 1w" :: "setup" :: (boardRows ++ ["end"])).map
        (fun c => encodeUtf8 c ++ [10]) :=
  c8_deterministic_stream _ _ rfl

/-- Claim C9: when the waiter loop exits with result `m`, its trace is
exactly one `ENGINE:` echo per dequeued line in dequeue order — all the
non-matching lines that preceded `m` in the queue, then `m` itself — and
the final move is additionally surfaced separately by the closing print.
With 50 diagnostic lines before the bestmove line, all 50 are echoed in
order before the 51st is matched (see the witness). -/
theorem c9_echo_all_lines (fuel : Nat) (q : List String) (m : String)
    (h : (waitLoop fuel q).2 = some m) :
    (waitLoop fuel q).1 =
      List.map Ev.echo (q.takeWhile (fun l => !(pyStartswith l "bestmove")) ++ [m]) ∧
    (∃ rest, q = q.takeWhile (fun l => !(pyStartswith l "bestmove")) ++ m :: rest) ∧
    pyStartswith m "bestmove" = true ∧
    (∀ l ∈ q.takeWhile (fun l => !(pyStartswith l "bestmove")),
      pyStartswith l "bestmove" = false) ∧
    Ev.printFinal m ∈ script fuel q := by
  obtain ⟨hm, _hfind, hsplit, htrace⟩ := waitLoop_some_spec fuel q m h
  refine ⟨htrace, hsplit, hm, ?_, ?_⟩
  · intro l hl
    have := List.mem_takeWhile_imp hl
    simpa using this
  · rw [script]
    cases hw : waitLoop fuel q with
    | mk evs r =>
      rw [hw] at h
      simp only at h
      subst h
      simp

theorem c9_witness :
    (waitLoop 60 (List.replicate 50 "log line" ++ ["bestmove m a2a3"])).2 =
      some "bestmove m a2a3" ∧
    (waitLoop 60 (List.replicate 50 "log line" ++ ["bestmove m a2a3"])).1 =
      List.map Ev.echo ((List.replicate 50 "log line" ++ ["bestmove m a2a3"]).takeWhile
        (fun l => !(pyStartswith l "bestmove")) ++ ["bestmove m a2a3"]) :=
  ⟨by decide,
   (c9_echo_all_lines 60 (List.replicate 50 "log line" ++ ["bestmove m a2a3"])
     "bestmove m a2a3" (by decide)).1⟩

theorem enqueue_output_fail (bad : List Nat) (rest : List (List Nat))
    (hbad : decodeUtf8 bad = none) :
    ∀ good, (∀ r ∈ good, (decodeUtf8 r).isSome = true) →
      enqueue_output (good ++ bad :: rest) =
        { enqueued := good.filterMap (fun r => (decodeUtf8 r).map pyRstripNl)
          closed := false } := by
  intro good
  induction good with
  | nil =>
    intro _
    simp only [List.nil_append, enqueue_output, hbad]
    rfl
  | cons g gs ih =>
    intro hgood
    obtain ⟨s, hs⟩ := Option.isSome_iff_exists.mp (hgood g (by simp))
    have ih2 := ih (fun r hr => hgood r (by simp [hr]))
    simp only [List.cons_append, enqueue_output, hs, ih2, List.filterMap_cons]
    simp [ih2, hs]

/-- Claim C10: when a raw line with invalid UTF-8 is read, the drainer
raises and dies: the lines before it are the only ones ever enqueued, no
later line (valid or not) is enqueued, the stream is never closed, and
the waiter keeps polling the (eventually empty) queue forever. -/
theorem c10_decode_failure (good : List (List Nat)) (bad : List Nat)
    (rest : List (List Nat)) (hbad : decodeUtf8 bad = none)
    (hgood : ∀ r ∈ good, (decodeUtf8 r).isSome = true) :
    (enqueue_output (good ++ bad :: rest)).enqueued =
      good.filterMap (fun r => (decodeUtf8 r).map pyRstripNl) ∧
    (enqueue_output (good ++ bad :: rest)).closed = false ∧
    (∀ fuel, waitLoop fuel [] = ([], none)) := by
  rw [enqueue_output_fail bad rest hbad good hgood]
  exact ⟨rfl, rfl, waitLoop_empty⟩

theorem c10_witness :
    (enqueue_output [[104, 105], [255], [97]]).enqueued = ["hi"] ∧
    (enqueue_output [[104, 105], [255], [97]]).closed = false := by
  obtain ⟨h1, h2, _⟩ := c10_decode_failure [[104, 105]] [255] [[97]] (by decide) (by decide)
  exact ⟨h1.trans (by decide), h2⟩
